import Mathlib

/-!
Shallow embedding of the book-catalog application (`src/main.py`):
the `Book` data model, the seed-data bootstrap `create_db_and_tables`,
the recommendation scorer `recommend_book_simple`, and the tag parsing
performed by the form-creation endpoint `create_book_via_form`.

Strings are modelled as `List Char`; Python string operations
(`lower`, `strip`, `split`, `in`, `join`) are embedded as executable
functions below.
-/

set_option autoImplicit false

/-- Embedding of Python `str.lower` on a single character, restricted to the
alphabets the application uses: ASCII letters and the basic Cyrillic block
(`А`–`Я` maps to `а`–`я`, `Ё` to `ё`). Other characters are unchanged. -/
def pyToLower (c : Char) : Char :=
  if 'A' ≤ c ∧ c ≤ 'Z' then Char.ofNat (c.toNat + 32)
  else if 'А' ≤ c ∧ c ≤ 'Я' then Char.ofNat (c.toNat + 32)
  else if c = 'Ё' then 'ё'
  else c

/-- Embedding of Python's whitespace test used by `str.strip` and
`str.split()` (ASCII whitespace: space, tab, newline, carriage return,
vertical tab, form feed). -/
def pyIsSpace (c : Char) : Bool :=
  c = ' ' || c = '\t' || c = '\n' || c = '\x0d' || c = '\x0b' || c = '\x0c'

/-- Embedding of Python `str.strip()`: remove leading and trailing
whitespace. -/
def pyStrip (s : List Char) : List Char :=
  ((s.dropWhile pyIsSpace).reverse.dropWhile pyIsSpace).reverse

/-- Helper for `pySplit`: `acc` holds the current word reversed. -/
def pySplitAux : List Char → List Char → List (List Char)
  | acc, [] => if acc.isEmpty then [] else [acc.reverse]
  | acc, c :: rest =>
    if pyIsSpace c then
      if acc.isEmpty then pySplitAux [] rest
      else acc.reverse :: pySplitAux [] rest
    else pySplitAux (c :: acc) rest

/-- Embedding of Python `str.split()` with no separator: split on runs of
whitespace, discarding empty tokens. -/
def pySplit (s : List Char) : List (List Char) :=
  pySplitAux [] s

/-- Boolean list-prefix test (needle is a prefix of hay). -/
def isPrefixL : List Char → List Char → Bool
  | [], _ => true
  | _ :: _, [] => false
  | a :: as, b :: bs => a = b && isPrefixL as bs

/-- Embedding of Python `needle in hay` on strings: contiguous-substring
containment. -/
def isSubstr (needle : List Char) : List Char → Bool
  | [] => isPrefixL needle []
  | c :: rest => isPrefixL needle (c :: rest) || isSubstr needle rest

/-- The `Book` model of `src/main.py` (table row): optional id assigned by
storage, title, author, and a JSON-stored list of tags. -/
structure Book where
  id : Option Nat
  title : String
  author : String
  tags : List String
deriving Repr, DecidableEq

/-- Embedding of Python `" ".join(tags)`: tags joined with single spaces,
as a character list. -/
def joinTags (tags : List String) : List Char :=
  List.intercalate [' '] (tags.map String.toList)

/-- Embedding of line 105 of `src/main.py`:
`match_score = sum(1 for word in query_words if word in tags_text)`,
where `tags_text = " ".join(book.tags).lower()` (line 104). -/
def matchScore (query_words : List (List Char)) (tags : List String) : Nat :=
  ((query_words.map fun word =>
      if isSubstr word ((joinTags tags).map pyToLower) then 1 else 0)).sum

/-- Embedding of line 95 of `src/main.py`:
`query_words = user_query.lower().split()`. -/
def queryWords (user_query : List Char) : List (List Char) :=
  pySplit (user_query.map pyToLower)

/-- One iteration of the scoring loop of `recommend_book_simple`
(lines 99-109 of `src/main.py`); the accumulator is
`(best_book, best_match_score)`. -/
def scoreStep (query_words : List (List Char)) (acc : Option Book × Nat)
    (book : Book) : Option Book × Nat :=
  if book.tags.isEmpty then acc
  else
    let match_score := matchScore query_words book.tags
    if match_score > acc.2 then (some book, match_score) else acc

/-- Embedding of `recommend_book_simple` (lines 90-111 of `src/main.py`). -/
def recommend_book_simple (user_query : List Char) (all_books : List Book) :
    Option Book :=
  if user_query.isEmpty || (pyStrip user_query).isEmpty then none
  else
    (all_books.foldl (scoreStep (queryWords user_query)) (none, 0)).1

/-- The seven seed books of `create_db_and_tables`
(lines 39-75 of `src/main.py`), in their literal order. -/
def initial_books : List Book :=
  [ Book.mk none "Изучаем Python" "Марк Лутц"
      ["мотивация", "учеба", "развитие", "практика"],
    Book.mk none "Чистый код" "Роберт Мартин"
      ["профессионализм", "качество", "структура", "лучшие практики"],
    Book.mk none "Автостопом по галактике" "Дуглас Адамс"
      ["юмор", "приключения", "философия", "абсурд"],
    Book.mk none "1984" "Джордж Оруэлл"
      ["антиутопия", "политика", "контроль", "размышления"],
    Book.mk none "Мастер и Маргарита" "Михаил Булгаков"
      ["мистика", "сатира", "добро и зло", "классика"],
    Book.mk none "Три товарища" "Эрих Мария Ремарк"
      ["дружба", "любовь", "потеря", "меланхолия"],
    Book.mk none "Маленький принц" "Антуан де Сент-Экзюпери"
      ["философия", "дети", "дружба", "простые истины"] ]

/-- Embedding of the bootstrap `create_db_and_tables`
(lines 28-80 of `src/main.py`) over a store modelled as the list of rows:
if no book exists, insert the seven seed books in order; otherwise insert
nothing. -/
def create_db_and_tables (store : List Book) : List Book :=
  if store.isEmpty then store ++ initial_books else store

/-- Helper for `splitComma`: `acc` holds the current piece reversed. -/
def splitCommaAux : List Char → List Char → List (List Char)
  | acc, [] => [acc.reverse]
  | acc, c :: rest =>
    if c = ',' then acc.reverse :: splitCommaAux [] rest
    else splitCommaAux (c :: acc) rest

/-- Embedding of Python `tags.split(",")`: split at every comma, keeping
empty pieces. -/
def splitComma (s : List Char) : List (List Char) :=
  splitCommaAux [] s

/-- Embedding of line 133 of `src/main.py` (`create_book_via_form`):
`tags_list = [tag.strip() for tag in tags.split(",") if tag.strip()] if tags else []`. -/
def tags_list (tags : List Char) : List (List Char) :=
  if tags.isEmpty then []
  else ((splitComma tags).map pyStrip).filter (fun t => !t.isEmpty)

/-- Follows the spec's words (§4.3 step 3c, Glossary "Match score"): the
match score is the count of query tokens for which the joined lowercased
tag text contains the token as a substring — each query token counted at
most once per book. For comparison with `matchScore`, the definition taken
from the source. -/
def matchScoreSpec (query_words : List (List Char)) (tags : List String) : Nat :=
  query_words.countP (fun word => isSubstr word ((joinTags tags).map pyToLower))

/-- Follows the spec's words: one step of the §4.3 loop, with the score of
step 3c computed as `matchScoreSpec`. -/
def scoreStepSpec (query_words : List (List Char)) (acc : Option Book × Nat)
    (book : Book) : Option Book × Nat :=
  if book.tags.isEmpty then acc
  else
    let ms := matchScoreSpec query_words book.tags
    if ms > acc.2 then (some book, ms) else acc

/-- Follows the spec's words: the §4.3 recommendation algorithm with the
per-book score computed as `matchScoreSpec`. -/
def recommendSpec (user_query : List Char) (all_books : List Book) :
    Option Book :=
  if user_query.isEmpty || (pyStrip user_query).isEmpty then none
  else (all_books.foldl (scoreStepSpec (queryWords user_query)) (none, 0)).1

/-- Follows the spec's words (§4.4): the tags form field is split on commas,
each piece is trimmed of whitespace, and empty pieces are dropped. -/
def tagsSpec (tags : List Char) : List (List Char) :=
  ((splitComma tags).map pyStrip).filter (fun t => !t.isEmpty)

/-- The score the loop of `recommend_book_simple` effectively uses for a
book: books with an empty tag list are skipped, which acts as score `0`. -/
def effScore (query_words : List (List Char)) (b : Book) : Nat :=
  if b.tags.isEmpty then 0 else matchScore query_words b.tags

/-- Maximum effective score over a list of books. -/
def maxEff (query_words : List (List Char)) (books : List Book) : Nat :=
  books.foldr (fun b m => max (effScore query_words b) m) 0

@[simp] lemma maxEff_nil (qw : List (List Char)) : maxEff qw [] = 0 := rfl

@[simp] lemma maxEff_cons (qw : List (List Char)) (b : Book) (rest : List Book) :
    maxEff qw (b :: rest) = max (effScore qw b) (maxEff qw rest) := rfl

lemma scoreStep_eq (qw : List (List Char)) (acc : Option Book × Nat) (b : Book) :
    scoreStep qw acc b
      = (if acc.2 < effScore qw b then some b else acc.1,
         max acc.2 (effScore qw b)) := by
  obtain ⟨best, s⟩ := acc
  by_cases h : b.tags.isEmpty
  · simp [scoreStep, effScore, h]
  · by_cases h2 : s < matchScore qw b.tags
    · simp [scoreStep, effScore, h, h2, gt_iff_lt,
        Nat.max_eq_right (Nat.le_of_lt h2)]
    · simp [scoreStep, effScore, h, h2, gt_iff_lt,
        Nat.max_eq_left (Nat.not_lt.mp h2)]

lemma foldl_scoreStep_eq (qw : List (List Char)) :
    ∀ (books : List Book) (best : Option Book) (s : Nat),
      books.foldl (scoreStep qw) (best, s)
        = if s < maxEff qw books
          then (books.find? (fun x => effScore qw x == maxEff qw books),
                maxEff qw books)
          else (best, s) := by
  intro books
  induction books with
  | nil => intro best s; simp
  | cons b rest ih =>
    intro best s
    rw [List.foldl_cons, scoreStep_eq, ih]
    by_cases h1 : s < maxEff qw (b :: rest)
    · rw [if_pos h1]
      by_cases h2 : maxEff qw rest ≤ effScore qw b
      · have hM : maxEff qw (b :: rest) = effScore qw b := by
          simp [Nat.max_eq_left h2]
        have hc1 : ¬ max s (effScore qw b) < maxEff qw rest := by omega
        have hse : s < effScore qw b := by
          rw [hM] at h1; exact h1
        rw [if_neg hc1, if_pos hse, hM,
          List.find?_cons_of_pos _ (by simp)]
        have : max s (effScore qw b) = effScore qw b :=
          Nat.max_eq_right (Nat.le_of_lt hse)
        rw [this]
      · have he : effScore qw b < maxEff qw rest := Nat.lt_of_not_le h2
        have hM : maxEff qw (b :: rest) = maxEff qw rest := by
          simp [Nat.max_eq_right (Nat.le_of_lt he)]
        have hc1 : max s (effScore qw b) < maxEff qw rest := by
          rw [hM] at h1; omega
        rw [if_pos hc1, hM, List.find?_cons_of_neg _ (by simp; omega)]
    · rw [if_neg h1]
      simp only [maxEff_cons] at h1
      have hc1 : ¬ max s (effScore qw b) < maxEff qw rest := by omega
      have hse : ¬ s < effScore qw b := by omega
      rw [if_neg hc1, if_neg hse]
      have : max s (effScore qw b) = s := Nat.max_eq_left (by omega)
      rw [this]

lemma guard_false_of_pyStrip_ne_nil {q : List Char} (h : pyStrip q ≠ []) :
    (q.isEmpty || (pyStrip q).isEmpty) = false := by
  have hq : q ≠ [] := by
    rintro rfl
    exact h rfl
  cases q with
  | nil => exact absurd rfl hq
  | cons c rest =>
    cases hps : pyStrip (c :: rest) with
    | nil => exact absurd hps h
    | cons d rest2 => simp [List.isEmpty, hps]

lemma recommend_eq_find (q : List Char) (books : List Book)
    (hq : pyStrip q ≠ []) :
    recommend_book_simple q books
      = if 0 < maxEff (queryWords q) books
        then books.find?
              (fun x => effScore (queryWords q) x == maxEff (queryWords q) books)
        else none := by
  unfold recommend_book_simple
  rw [guard_false_of_pyStrip_ne_nil hq, if_neg (by simp : ¬ false = true)]
  rw [foldl_scoreStep_eq]
  by_cases h : 0 < maxEff (queryWords q) books
  · rw [if_pos h, if_pos h]
  · rw [if_neg h, if_neg h]

lemma find?_eq_some_split {p : Book → Bool} :
    ∀ {l : List Book} {b : Book}, l.find? p = some b →
      ∃ l1 l2, l = l1 ++ b :: l2 ∧ (∀ x ∈ l1, ¬ p x = true) ∧ p b = true := by
  intro l
  induction l with
  | nil => intro b h; simp [List.find?] at h
  | cons a rest ih =>
    intro b h
    by_cases hp : p a
    · rw [List.find?_cons_of_pos _ hp] at h
      cases h
      exact ⟨[], rest, rfl, by simp, hp⟩
    · rw [List.find?_cons_of_neg _ hp] at h
      obtain ⟨l1, l2, rfl, h1, h2⟩ := ih h
      refine ⟨a :: l1, l2, rfl, ?_, h2⟩
      intro x hx
      rcases List.mem_cons.mp hx with rfl | hx
      · exact hp
      · exact h1 x hx

lemma effScore_le_maxEff (qw : List (List Char)) :
    ∀ {books : List Book} {b : Book}, b ∈ books →
      effScore qw b ≤ maxEff qw books := by
  intro books
  induction books with
  | nil => intro b h; cases h
  | cons a rest ih =>
    intro b h
    rcases List.mem_cons.mp h with rfl | h
    · simp only [maxEff_cons]
      omega
    · have := ih h
      simp only [maxEff_cons]
      omega

lemma maxEff_eq_zero_iff (qw : List (List Char)) :
    ∀ (books : List Book),
      maxEff qw books = 0 ↔ ∀ b ∈ books, effScore qw b = 0 := by
  intro books
  induction books with
  | nil => simp
  | cons a rest ih =>
    simp [maxEff_cons, Nat.max_eq_zero_iff, ih, List.forall_mem_cons]

lemma find?_maxEff_isSome (qw : List (List Char)) :
    ∀ (books : List Book), 0 < maxEff qw books →
      ∃ b, books.find? (fun x => effScore qw x == maxEff qw books) = some b := by
  intro books
  induction books with
  | nil => intro h; simp at h
  | cons a rest ih =>
    intro h
    by_cases hp : (effScore qw a == maxEff qw (a :: rest)) = true
    · exact ⟨a, List.find?_cons_of_pos _ hp⟩
    · have he : effScore qw a ≠ maxEff qw (a :: rest) := by simpa using hp
      have hM : maxEff qw (a :: rest) = maxEff qw rest := by
        simp only [maxEff_cons] at he ⊢
        omega
      rw [List.find?_cons_of_neg
        (p := fun x => effScore qw x == maxEff qw (a :: rest)) _ hp]
      simp only [hM] at h ⊢
      exact ih h

lemma pySplitAux_mem_ne_nil :
    ∀ (s acc w : List Char), w ∈ pySplitAux acc s → w ≠ [] := by
  intro s
  induction s with
  | nil =>
    intro acc w hw
    unfold pySplitAux at hw
    by_cases h : acc.isEmpty
    · simp [h] at hw
    · simp [h] at hw
      subst hw
      simp only [ne_eq, List.reverse_eq_nil_iff]
      intro hacc
      rw [hacc] at h
      exact h rfl
  | cons c rest ih =>
    intro acc w hw
    unfold pySplitAux at hw
    by_cases hs : pyIsSpace c
    · by_cases h : acc.isEmpty
      · simp [hs, h] at hw
        exact ih [] w hw
      · simp [hs, h] at hw
        rcases hw with rfl | hw
        · simp only [ne_eq, List.reverse_eq_nil_iff]
          intro hacc
          rw [hacc] at h
          exact h rfl
        · exact ih [] w hw
    · simp [hs] at hw
      exact ih (c :: acc) w hw

lemma pySplit_mem_ne_nil {s w : List Char} (h : w ∈ pySplit s) : w ≠ [] :=
  pySplitAux_mem_ne_nil s [] w h

@[simp] lemma joinTags_nil : joinTags [] = [] := rfl

lemma matchScore_nil_tags {qw : List (List Char)} (h : ∀ w ∈ qw, w ≠ []) :
    matchScore qw [] = 0 := by
  induction qw with
  | nil => rfl
  | cons w ws ih =>
    have hw : w ≠ [] := h w (by simp)
    have hws : ∀ x ∈ ws, x ≠ [] := fun x hx => h x (by simp [hx])
    have hsub : isSubstr w ((joinTags []).map pyToLower) = false := by
      cases w with
      | nil => exact absurd rfl hw
      | cons a as => rfl
    unfold matchScore at ih ⊢
    simp only [List.map_cons, List.sum_cons, hsub, if_false]
    simpa using ih hws

lemma effScore_eq_matchScore {qw : List (List Char)} (h : ∀ w ∈ qw, w ≠ [])
    (b : Book) : effScore qw b = matchScore qw b.tags := by
  unfold effScore
  by_cases ht : b.tags.isEmpty
  · rw [if_pos ht]
    have : b.tags = [] := by
      cases htags : b.tags with
      | nil => rfl
      | cons x xs => rw [htags] at ht; simp [List.isEmpty] at ht
    rw [this]
    exact (matchScore_nil_tags h).symm
  · rw [if_neg ht]

lemma sum_map_ite_eq_countP (p : List Char → Bool) :
    ∀ (ws : List (List Char)),
      ((ws.map fun w => if p w then 1 else 0)).sum = ws.countP p := by
  intro ws
  induction ws with
  | nil => rfl
  | cons w rest ih =>
    simp only [List.map_cons, List.sum_cons, List.countP_cons, ih]
    exact Nat.add_comm _ _

lemma matchScore_eq_matchScoreSpec (qw : List (List Char)) (tags : List String) :
    matchScore qw tags = matchScoreSpec qw tags :=
  sum_map_ite_eq_countP _ qw

lemma recommend_eq_recommendSpec (q : List Char) (books : List Book) :
    recommend_book_simple q books = recommendSpec q books := by
  unfold recommend_book_simple recommendSpec
  have hstep : scoreStep (queryWords q) = scoreStepSpec (queryWords q) := by
    funext acc b
    unfold scoreStep scoreStepSpec
    rw [matchScore_eq_matchScoreSpec]
  rw [hstep]

/-- C1: for every query that is non-empty after trimming, the recommender
computes each book's match score as the number of query tokens (lowercased
query split on whitespace runs, duplicates counted separately) for which
the joined lowercased tag text contains the token as a substring; each
query token counts at most once per book. Stated as: `recommend_book_simple`
coincides with the spec-worded `recommendSpec`, the source's summed
indicator score equals the spec-worded containment count, and that count is
bounded by the number of query tokens. -/
theorem recommend_matchScore_substring_count :
    ∀ (q : List Char) (books : List Book) (tags : List String),
      pyStrip q ≠ [] →
      recommend_book_simple q books = recommendSpec q books
        ∧ matchScore (queryWords q) tags = matchScoreSpec (queryWords q) tags
        ∧ matchScoreSpec (queryWords q) tags ≤ (queryWords q).length := by
  intro q books tags _
  refine ⟨recommend_eq_recommendSpec q books,
    matchScore_eq_matchScoreSpec _ tags, ?_⟩
  unfold matchScoreSpec
  exact List.countP_le_length _

theorem recommend_matchScore_substring_count_witness :
    recommend_book_simple "ab".toList [Book.mk none "T" "A" ["ab"]]
        = recommendSpec "ab".toList [Book.mk none "T" "A" ["ab"]]
      ∧ matchScore (queryWords "ab".toList) ["ab"]
          = matchScoreSpec (queryWords "ab".toList) ["ab"]
      ∧ matchScoreSpec (queryWords "ab".toList) ["ab"]
          ≤ (queryWords "ab".toList).length :=
  recommend_matchScore_substring_count "ab".toList [Book.mk none "T" "A" ["ab"]]
    ["ab"] (by decide)

/-- C2: with the seven seed books in their fixed insertion order, the query
"хочу мотивацию и практику" returns the book titled "Изучаем Python" with
tags ["мотивация", "учеба", "развитие", "практика"]. -/
theorem recommend_seed_query_returns_first_book :
    recommend_book_simple "хочу мотивацию и практику".toList initial_books
      = some (Book.mk none "Изучаем Python" "Марк Лутц"
          ["мотивация", "учеба", "развитие", "практика"]) := by decide

/-- C3: a book replaces the current best only on a strictly greater score,
so whenever the recommender returns a book, that book splits the input list
so that every earlier book scores strictly less and every later book scores
at most as much, and its own score is positive — among books of equal
maximal nonzero score the earliest in input order is returned. -/
theorem recommend_tie_break_earliest :
    ∀ (q : List Char) (books : List Book) (b : Book),
      recommend_book_simple q books = some b →
      ∃ l1 l2, books = l1 ++ b :: l2
        ∧ 0 < matchScore (queryWords q) b.tags
        ∧ (∀ b' ∈ l1, matchScore (queryWords q) b'.tags
              < matchScore (queryWords q) b.tags)
        ∧ (∀ b' ∈ l2, matchScore (queryWords q) b'.tags
              ≤ matchScore (queryWords q) b.tags) := by
  intro q books b h
  have htok : ∀ w ∈ queryWords q, w ≠ [] := fun w hw => pySplit_mem_ne_nil hw
  have hq : pyStrip q ≠ [] := by
    intro hstrip
    unfold recommend_book_simple at h
    rw [hstrip] at h
    simp at h
  rw [recommend_eq_find q books hq] at h
  by_cases hM : 0 < maxEff (queryWords q) books
  · rw [if_pos hM] at h
    obtain ⟨l1, l2, rfl, h1, h2⟩ := find?_eq_some_split h
    have hb : effScore (queryWords q) b
        = maxEff (queryWords q) (l1 ++ b :: l2) := by
      simpa using h2
    refine ⟨l1, l2, rfl, ?_, ?_, ?_⟩
    · rw [← effScore_eq_matchScore htok b]
      omega
    · intro b' hb'
      have hmem : b' ∈ l1 ++ b :: l2 := List.mem_append_left _ hb'
      have hle := effScore_le_maxEff (queryWords q) hmem
      have hne : effScore (queryWords q) b'
          ≠ maxEff (queryWords q) (l1 ++ b :: l2) := by
        have := h1 b' hb'
        simpa using this
      rw [← effScore_eq_matchScore htok b', ← effScore_eq_matchScore htok b]
      omega
    · intro b' hb'
      have hmem : b' ∈ l1 ++ b :: l2 :=
        List.mem_append_right _ (List.mem_cons_of_mem _ hb')
      have hle := effScore_le_maxEff (queryWords q) hmem
      rw [← effScore_eq_matchScore htok b', ← effScore_eq_matchScore htok b]
      omega
  · rw [if_neg hM] at h
    exact Option.noConfusion h

theorem recommend_tie_break_earliest_witness :
    ∃ l1 l2,
      [Book.mk none "B1" "A" ["ab"], Book.mk none "B2" "A" ["ab"]]
          = l1 ++ Book.mk none "B1" "A" ["ab"] :: l2
        ∧ 0 < matchScore (queryWords "ab".toList)
              (Book.mk none "B1" "A" ["ab"]).tags
        ∧ (∀ b' ∈ l1, matchScore (queryWords "ab".toList) b'.tags
              < matchScore (queryWords "ab".toList)
                  (Book.mk none "B1" "A" ["ab"]).tags)
        ∧ (∀ b' ∈ l2, matchScore (queryWords "ab".toList) b'.tags
              ≤ matchScore (queryWords "ab".toList)
                  (Book.mk none "B1" "A" ["ab"]).tags) :=
  recommend_tie_break_earliest "ab".toList
    [Book.mk none "B1" "A" ["ab"], Book.mk none "B2" "A" ["ab"]]
    (Book.mk none "B1" "A" ["ab"]) (by decide)

/-- C4: for a query that is non-empty after trimming, the recommender
returns none exactly when every book scores 0, and any returned book has a
strictly positive match score. -/
theorem recommend_none_iff_no_positive_score :
    ∀ (q : List Char) (books : List Book), pyStrip q ≠ [] →
      (recommend_book_simple q books = none
          ↔ ∀ b ∈ books, matchScore (queryWords q) b.tags = 0)
        ∧ (∀ b : Book, recommend_book_simple q books = some b →
            0 < matchScore (queryWords q) b.tags) := by
  intro q books hq
  have htok : ∀ w ∈ queryWords q, w ≠ [] := fun w hw => pySplit_mem_ne_nil hw
  have heff : ∀ b : Book,
      effScore (queryWords q) b = matchScore (queryWords q) b.tags :=
    effScore_eq_matchScore htok
  rw [recommend_eq_find q books hq]
  constructor
  · constructor
    · intro h
      by_cases hM : 0 < maxEff (queryWords q) books
      · rw [if_pos hM] at h
        obtain ⟨b, hb⟩ := find?_maxEff_isSome (queryWords q) books hM
        rw [hb] at h
        exact absurd h (by simp)
      · intro b hbmem
        rw [← heff b]
        have h0 : maxEff (queryWords q) books = 0 := by omega
        exact (maxEff_eq_zero_iff (queryWords q) books).mp h0 b hbmem
    · intro hall
      have h0 : maxEff (queryWords q) books = 0 :=
        (maxEff_eq_zero_iff (queryWords q) books).mpr
          (fun b hb => by rw [heff b]; exact hall b hb)
      rw [if_neg (by omega)]
  · intro b h
    by_cases hM : 0 < maxEff (queryWords q) books
    · rw [if_pos hM] at h
      have hpb := List.find?_some h
      have heq : effScore (queryWords q) b = maxEff (queryWords q) books := by
        simpa using hpb
      rw [← heff b]
      omega
    · rw [if_neg hM] at h
      exact Option.noConfusion h

theorem recommend_none_iff_no_positive_score_witness :
    (recommend_book_simple "zz".toList [Book.mk none "T" "A" ["cd"]] = none
        ↔ ∀ b ∈ [Book.mk none "T" "A" ["cd"]],
            matchScore (queryWords "zz".toList) b.tags = 0)
      ∧ (∀ b : Book,
          recommend_book_simple "zz".toList [Book.mk none "T" "A" ["cd"]]
              = some b →
          0 < matchScore (queryWords "zz".toList) b.tags) :=
  recommend_none_iff_no_positive_score "zz".toList [Book.mk none "T" "A" ["cd"]]
    (by decide)

/-- C5: for every book list, a query that is empty or consists only of
whitespace makes the recommender return none (the scorer is a total
function, so this no-match case is never an error). -/
theorem recommend_whitespace_query_none :
    ∀ (q : List Char) (books : List Book), (∀ c ∈ q, pyIsSpace c = true) →
      recommend_book_simple q books = none := by
  intro q books h
  have hdrop : q.dropWhile pyIsSpace = [] := by
    induction q with
    | nil => rfl
    | cons c rest ih =>
      rw [List.dropWhile_cons, if_pos (h c (by simp))]
      exact ih (fun x hx => h x (by simp [hx]))
  have hstrip : pyStrip q = [] := by
    unfold pyStrip
    rw [hdrop]
    rfl
  unfold recommend_book_simple
  rw [hstrip]
  simp

theorem recommend_whitespace_query_none_witness :
    recommend_book_simple "   ".toList [Book.mk none "T" "A" ["ab"]] = none :=
  recommend_whitespace_query_none "   ".toList [Book.mk none "T" "A" ["ab"]]
    (by decide)

/-- C6: a book whose tag list is empty is skipped by the scorer and is
never the book returned by the recommender. -/
theorem recommend_never_returns_empty_tags :
    ∀ (q : List Char) (books : List Book) (b : Book),
      recommend_book_simple q books = some b → b.tags ≠ [] := by
  intro q books b h htags
  have hq : pyStrip q ≠ [] := by
    intro hstrip
    unfold recommend_book_simple at h
    rw [hstrip] at h
    simp at h
  rw [recommend_eq_find q books hq] at h
  by_cases hM : 0 < maxEff (queryWords q) books
  · rw [if_pos hM] at h
    have hpb := List.find?_some h
    have heq : effScore (queryWords q) b = maxEff (queryWords q) books := by
      simpa using hpb
    unfold effScore at heq
    rw [htags] at heq
    simp at heq
    omega
  · rw [if_neg hM] at h
    exact Option.noConfusion h

theorem recommend_never_returns_empty_tags_witness :
    (Book.mk none "B2" "A" ["xy"]).tags ≠ [] :=
  recommend_never_returns_empty_tags "xy".toList
    [Book.mk none "B1" "A" [], Book.mk none "B2" "A" ["xy"]]
    (Book.mk none "B2" "A" ["xy"]) (by decide)

/-- C7: the form-creation endpoint parses the tags field by splitting on
commas, trimming whitespace from each piece, and dropping empty pieces; in
particular "x, y ,  z" yields ["x", "y", "z"] and "" yields []. -/
theorem create_book_form_tags_parsing :
    (∀ t : List Char, tags_list t = tagsSpec t)
      ∧ tags_list "x, y ,  z".toList = ["x".toList, "y".toList, "z".toList]
      ∧ tags_list "".toList = [] := by
  refine ⟨?_, by decide, by decide⟩
  intro t
  unfold tags_list tagsSpec
  cases t with
  | nil => rfl
  | cons c rest => rfl

/-- C8: on an empty store the bootstrap inserts exactly the seven seed
books in their fixed order; on a non-empty store it inserts nothing, so a
second startup inserts 0 additional books. -/
theorem bootstrap_inserts_seed_books_once :
    create_db_and_tables [] = initial_books
      ∧ initial_books.length = 7
      ∧ (∀ store : List Book, store ≠ [] → create_db_and_tables store = store)
      ∧ create_db_and_tables (create_db_and_tables [])
          = create_db_and_tables [] := by
  refine ⟨rfl, rfl, ?_, rfl⟩
  intro store hs
  cases store with
  | nil => exact absurd rfl hs
  | cons a rest => rfl

theorem bootstrap_inserts_seed_books_once_witness :
    create_db_and_tables [Book.mk none "T" "A" []] = [Book.mk none "T" "A" []] :=
  bootstrap_inserts_seed_books_once.2.2.1 [Book.mk none "T" "A" []] (by decide)

/-- C9: the recommender is a deterministic pure function of its two
arguments — identical query strings and identical book lists yield the
identical result. -/
theorem recommend_deterministic :
    ∀ (q1 q2 : List Char) (books1 books2 : List Book),
      q1 = q2 → books1 = books2 →
      recommend_book_simple q1 books1 = recommend_book_simple q2 books2 := by
  intro q1 q2 books1 books2 h1 h2
  rw [h1, h2]

theorem recommend_deterministic_witness :
    recommend_book_simple "a".toList [] = recommend_book_simple "a".toList [] :=
  recommend_deterministic "a".toList "a".toList [] [] rfl rfl

/-- C10: for every query string, the recommender applied to the empty book
list returns none. -/
theorem recommend_empty_books_none :
    ∀ q : List Char, recommend_book_simple q [] = none := by
  intro q
  unfold recommend_book_simple
  split
  · rfl
  · rfl
